import Mathlib

/-!
Verification development for the `ruv-xmltv` converter (`convert.py`).

The Python source is shallowly embedded here:
* timestamps are modelled as integers (a Python `datetime` is an element of a
  totally ordered timeline; ordering and addition of durations are the only
  operations the converter performs on them, so `Int` seconds is an exact model);
* in-place list mutation (the overlap-clamping loop) is modelled as a fold
  that rewrites the list element-by-element with `List.set`;
* fallible code (`raise`) is modelled with `Except`;
* Python strings are modelled as `String` / `List Char`, with the string
  primitives the source uses (`split`, `strip`, `replace`, `re.findall`,
  `html.escape`, `str.lower`, `sorted`, `set`) re-implemented executably below.
-/

namespace Ruv

/-- The `Event` record built by `parse_kringla_schedule`
(`{"start": .., "stop": .., "title": .., "desc": ..}`).  `start`/`stop` are
instants on the timeline, modelled as `Int` (seconds). -/
structure Event where
  start : Int
  stop : Int
  title : String
  desc : String
deriving DecidableEq

/-- One iteration of the loop body of `clamp_overlaps_shorten_previous`:
`if events[i]["stop"] > events[i+1]["start"]: events[i]["stop"] = events[i+1]["start"]`. -/
def clampStep (evs : List Event) (i : Nat) : List Event :=
  match evs[i]?, evs[i + 1]? with
  | some a, some b => if b.start < a.stop then evs.set i { a with stop := b.start } else evs
  | _, _ => evs

/-- The `for i in range(len(events) - 1)` loop of `clamp_overlaps_shorten_previous`. -/
def clampLoop (evs : List Event) : List Event :=
  (List.range (evs.length - 1)).foldl clampStep evs

/-- Model of `clamp_overlaps_shorten_previous(events)`: run the clamping loop, then
`return [e for e in events if e["stop"] > e["start"]]`. -/
def clamp_overlaps_shorten_previous (evs : List Event) : List Event :=
  (clampLoop evs).filter (fun e => e.start < e.stop)

/-- Recursive (pure) description of the clamping pass: each event's stop is
shortened to the next event's start when it exceeds it; the last event is
untouched.  Proved equal to the imperative loop below. -/
def clampPairs : List Event → List Event
  | [] => []
  | [e] => [e]
  | a :: b :: rest =>
      (if b.start < a.stop then { a with stop := b.start } else a) :: clampPairs (b :: rest)

/-! ### The listing resolver: `pick_latest_xml`

`fetch_text` is an external collaborator; `pick_latest_xml` is modelled as a
function of the fetched listing text.  The regex scan
`re.findall` with the path-token pattern (one or more of: word chars, dot,
slash, hyphen; then the literal `.xml`), case-insensitive, is embedded directly: at each position the engine matches a maximal run of class
characters greedily and backtracks until the literal `.xml` (case-insensitive)
closes the match, i.e. the match at a position is the longest prefix of the
class-character run that ends in `.xml` and has at least one class character
before it; scanning then resumes after the match (non-overlapping), or one
character later if no match starts here.  `\w` is modelled at ASCII scope
(letters, digits, underscore), the alphabet the feed's listings use. -/

/-- A character matched by the pattern's character class: word chars (ASCII
scope of `\w`), dot, slash, hyphen. -/
def isClassChar (c : Char) : Bool := c.isAlphanum || c == '_' || c == '.' || c == '/' || c == '-'

/-- Does this token have the shape `<one or more class chars>` + `.xml`
(case-insensitive), i.e. length ≥ 5 and the last four characters `.xml`? -/
def isXmlEnd (l : List Char) : Bool :=
  decide (5 ≤ l.length) && ((l.drop (l.length - 4)).map Char.toLower == ['.', 'x', 'm', 'l'])

/-- Largest `k` such that the first `k` characters of the class-character run
form a match of the pattern (greedy `+` with backtracking takes the largest). -/
def lastXmlEnd (run : List Char) : Option Nat :=
  ((List.range (run.length + 1)).filter (fun k => isXmlEnd (run.take k))).getLast?

/-- Length of the regex match starting exactly at the head of `cs`, if any. -/
def tryMatch (cs : List Char) : Option Nat := lastXmlEnd (cs.takeWhile isClassChar)

/-- The scan loop of `re.findall`.  The fuel argument only bounds recursion
depth; every step consumes at least one character, so fuel = input length
(as used in `findallXml`) is never exhausted. -/
def scanFuel : Nat → List Char → List (List Char)
  | 0, _ => []
  | _ + 1, [] => []
  | fuel + 1, c :: rest =>
    match tryMatch (c :: rest) with
    | some k => (c :: rest).take k :: scanFuel fuel ((c :: rest).drop k)
    | none => scanFuel fuel rest

/-- Model of `re.findall` of the path-token pattern over the listing, case-insensitive. -/
def findallXml (listing : String) : List (List Char) := scanFuel listing.data.length listing.data

/-- Model of the query strip `x.split("?")[0]`. -/
def stripQuery (t : List Char) : List Char := t.takeWhile (fun c => c != '?')

/-- Model of `str.lower()` (ASCII scope). -/
def lowerL (l : List Char) : List Char := l.map Char.toLower

/-- Python string `<=` (lexicographic by code point), as a Boolean test. -/
def lexLe : List Char → List Char → Bool
  | [], _ => true
  | _ :: _, [] => false
  | a :: as, b :: bs => if a < b then true else if b < a then false else lexLe as bs

/-- Insert into an ascending list (insertion step of `sorted`). -/
def insertLe (s : List Char) : List (List Char) → List (List Char)
  | [] => [s]
  | t :: ts => if lexLe s t then s :: t :: ts else t :: insertLe s ts

/-- Model of `sorted(...)` by Python string comparison. -/
def sortStr (l : List (List Char)) : List (List Char) := l.foldr insertLe []

/-- The candidate list of `pick_latest_xml`:
`sorted(set(x.split("?")[0] for x in raw))`, then the
`not c.lower().endswith("xmltv.dtd")` filter. -/
def candidatesOf (listing : String) : List (List Char) :=
  (sortStr (((findallXml listing).map stripQuery).dedup)).filter
    (fun c => !("xmltv.dtd".data.isSuffixOf (lowerL c)))

/-- Model of `listing[:1200].replace("\n", "\\n")` (the replacement, applied to the
already-truncated prefix). -/
def escapeNl (cs : List Char) : List Char :=
  cs.flatMap (fun c => if c = '\n' then ['\\', 'n'] else [c])

/-- Model of `str.rstrip("/")`. -/
def rstripSlashL (cs : List Char) : List Char := (cs.reverse.dropWhile (fun c => c == '/')).reverse

/-- Model of `str.lstrip("/")`. -/
def lstripSlashL (cs : List Char) : List Char := cs.dropWhile (fun c => c == '/')

/-- The `RuntimeError` message raised when no candidate remains. -/
def noScheduleMsg (base_url listing : String) : String :=
  "No .xml filenames found at " ++ base_url ++ ". Page starts with: " ++
    String.mk (escapeNl (listing.data.take 1200))

/-- Model of `pick_latest_xml(base_url)` as a function of the fetched listing text.
`RuntimeError` is modelled as `Except.error` carrying the message. -/
def pick_latest_xml (base_url listing : String) : Except String String :=
  match (candidatesOf listing).getLast? with
  | none => .error (noScheduleMsg base_url listing)
  | some latest =>
    if "http://".data.isPrefixOf latest || "https://".data.isPrefixOf latest then
      .ok (String.mk latest)
    else
      .ok (String.mk (rstripSlashL base_url.data ++ '/' :: lstripSlashL latest))

/-- Simplified candidate pipeline named by claim C10: deduplicate and sort the
raw regex matches, with no query-stripping and no dtd filter. -/
def rawCandidatesOf (listing : String) : List (List Char) := sortStr (findallXml listing).dedup

/-- Variant of `pick_latest_xml` with `rawCandidatesOf` in place of
`candidatesOf` (the simplification claim C10 asserts to be equivalent). -/
def pick_latest_xml_raw (base_url listing : String) : Except String String :=
  match (rawCandidatesOf listing).getLast? with
  | none => .error (noScheduleMsg base_url listing)
  | some latest =>
    if "http://".data.isPrefixOf latest || "https://".data.isPrefixOf latest then
      .ok (String.mk latest)
    else
      .ok (String.mk (rstripSlashL base_url.data ++ '/' :: lstripSlashL latest))

/-! ### The schedule parser: `parse_kringla_schedule`

`ET.fromstring` (the well-formedness parse of the raw markup) is an external
collaborator; `parse_kringla_schedule` is modelled as a function of the
already-parsed element tree.  A `datetime` produced by `strptime` is mapped to
its position on the seconds timeline (proleptic-Gregorian day count, as in
CPython's `_days_before_year` / `_days_before_month`), so that ordering and
`+ timedelta` are ordinary integer operations; `strptime` is modelled on the
canonical zero-padded form of `%Y-%m-%d %H:%M:%S` (the form the feed emits;
variants with unpadded fields are out of scope and rejected).  Python's
`ValueError`s are modelled as `Except.error`: `ParseErr.unexpectedRoot` for
the explicit root-tag check, `ParseErr.badValue` for conversion failures. -/

/-- An element of the parsed XML tree: tag, attributes, child elements, text. -/
inductive XElem where
  | mk (tag : String) (attrs : List (String × String)) (children : List XElem)
      (textContent : Option String)

def XElem.tag : XElem → String
  | .mk t _ _ _ => t

def XElem.attrs : XElem → List (String × String)
  | .mk _ a _ _ => a

def XElem.children : XElem → List XElem
  | .mk _ _ c _ => c

def XElem.textContent : XElem → Option String
  | .mk _ _ _ x => x

/-- Model of `Element.get(key)`: attribute lookup. -/
def XElem.getAttr (e : XElem) (k : String) : Option String :=
  (e.attrs.find? (fun p => p.1 == k)).map (fun p => p.2)

/-- Python `a or b` on two string-or-None values (None and the empty string
are falsy). -/
def pyOr2 (a b : Option String) : Option String :=
  match a with
  | some s => if s = "" then b else some s
  | none => b

/-- Python `a or dflt` where the result must be a string: keep `a` when it is
a non-empty string, otherwise the default. -/
def truthyOr (a : Option String) (dflt : String) : String :=
  match a with
  | some s => if s = "" then dflt else s
  | none => dflt

/-- One parsed `service` record: `{service_id, service_name, events}`. -/
structure Service where
  service_id : String
  service_name : String
  events : List Event
deriving DecidableEq

/-- The `ValueError`s `parse_kringla_schedule` can raise: the explicit
root-element check, and conversion errors (`strptime`, tuple unpack, `int`). -/
inductive ParseErr where
  | unexpectedRoot (tag : String)
  | badValue (msg : String)
deriving DecidableEq

def digitVal (c : Char) : Nat := c.toNat - 48

def isLeap (y : Nat) : Bool := y % 4 == 0 && (y % 100 != 0 || y % 400 == 0)

def daysInMonth (y m : Nat) : Nat :=
  if m = 2 then (if isLeap y then 29 else 28)
  else if m = 4 || m = 6 || m = 9 || m = 11 then 30
  else 31

/-- Days of the proleptic Gregorian calendar before January 1 of year `y`
(CPython `_days_before_year`). -/
def daysBeforeYear (y : Nat) : Nat :=
  (y - 1) * 365 + (y - 1) / 4 - (y - 1) / 100 + (y - 1) / 400

/-- Days in year `y` before the first of month `m` (CPython
`_days_before_month`). -/
def daysBeforeMonth (y m : Nat) : Nat :=
  (List.take (m - 1) [31, 28, 31, 30, 31, 30, 31, 31, 30, 31, 30, 31]).sum
    + (if 2 < m ∧ isLeap y then 1 else 0)

/-- Seconds-timeline position of the naive datetime `(y, mo, d, h, mi, s)`. -/
def toSecs (y mo d h mi s : Nat) : Int :=
  ((daysBeforeYear y + daysBeforeMonth y mo + (d - 1)) * 86400 + h * 3600 + mi * 60 + s : Nat)

/-- Model of `start_time.replace("T", " ")`. -/
def replaceT (s : String) : List Char := s.data.map (fun c => if c = 'T' then ' ' else c)

/-- Model of `datetime.strptime(text, fmt)` with the date-time format the
parser uses, on the canonical zero-padded form; validates the ranges the
`datetime` constructor enforces, and yields the seconds-timeline position. -/
def parseTimestamp (cs : List Char) : Option Int :=
  match cs with
  | [y1, y2, y3, y4, '-', m1, m2, '-', d1, d2, ' ', h1, h2, ':', n1, n2, ':', s1, s2] =>
    if y1.isDigit && y2.isDigit && y3.isDigit && y4.isDigit && m1.isDigit && m2.isDigit &&
        d1.isDigit && d2.isDigit && h1.isDigit && h2.isDigit && n1.isDigit && n2.isDigit &&
        s1.isDigit && s2.isDigit then
      let y := ((digitVal y1 * 10 + digitVal y2) * 10 + digitVal y3) * 10 + digitVal y4
      let mo := digitVal m1 * 10 + digitVal m2
      let d := digitVal d1 * 10 + digitVal d2
      let h := digitVal h1 * 10 + digitVal h2
      let mi := digitVal n1 * 10 + digitVal n2
      let s := digitVal s1 * 10 + digitVal s2
      if 1 ≤ y ∧ 1 ≤ mo ∧ mo ≤ 12 ∧ 1 ≤ d ∧ d ≤ daysInMonth y mo ∧ h ≤ 23 ∧ mi ≤ 59 ∧ s ≤ 59 then
        some (toSecs y mo d h mi s)
      else none
    else none
  | _ => none

/-- Model of `str.strip()`. -/
def trimWs (cs : List Char) : List Char :=
  ((cs.dropWhile Char.isWhitespace).reverse.dropWhile Char.isWhitespace).reverse

def natOfDigits (ds : List Char) : Nat := ds.foldl (fun acc c => acc * 10 + digitVal c) 0

/-- Model of `int(s)`: optional surrounding whitespace, optional sign, one or
more digits (digit-group underscores are out of scope and rejected). -/
def pyInt (s : List Char) : Option Int :=
  match trimWs s with
  | '-' :: ds => if ds.length ≠ 0 ∧ ds.all Char.isDigit then some (-(natOfDigits ds : Int)) else none
  | '+' :: ds => if ds.length ≠ 0 ∧ ds.all Char.isDigit then some (natOfDigits ds : Int) else none
  | ds => if ds.length ≠ 0 ∧ ds.all Char.isDigit then some (natOfDigits ds : Int) else none

/-- Model of `str.split(sep)` for a one-character separator (keeps empty
parts, like Python). -/
def splitCh (sep : Char) (cs : List Char) : List (List Char) :=
  cs.foldr
    (fun c acc =>
      if c = sep then [] :: acc
      else
        match acc with
        | a :: rest => (c :: a) :: rest
        | [] => [[c]])
    [[]]

/-- Model of `e.find("./t")`: first direct child with the given tag. -/
def XElem.findChild (e : XElem) (t : String) : Option XElem :=
  e.children.find? (fun c => c.tag == t)

/-- Model of `e.findall("./t")`: all direct children with the given tag, in
document order. -/
def childElems (e : XElem) (t : String) : List XElem :=
  e.children.filter (fun c => c.tag == t)

/-- Model of `(el.text or "").strip() if el is not None else ""`. -/
def textOrEmpty (o : Option XElem) : String :=
  match o with
  | some el => String.mk (trimWs (el.textContent.getD "").data)
  | none => ""

/-- The per-`event` body of the parser loop: skip the event (`continue`,
modelled as `.ok none`) when the start-time attribute (either variant) or the
duration attribute is missing or empty, otherwise convert; conversion
failures raise (`.error`). -/
def parseEvent (ev : XElem) : Except ParseErr (Option Event) :=
  match pyOr2 (ev.getAttr "start-time") (ev.getAttr "start_time"), ev.getAttr "duration" with
  | some st, some du =>
    if st = "" ∨ du = "" then .ok none
    else
      match parseTimestamp (replaceT st) with
      | none => .error (.badValue ("time data " ++ st ++ " does not match format"))
      | some startSecs =>
        match splitCh ':' (trimWs du.data) with
        | [hh, mm, ss] =>
          match pyInt hh, pyInt mm, pyInt ss with
          | some h, some m, some s =>
            .ok (some { start := startSecs,
                        stop := startSecs + h * 3600 + m * 60 + s,
                        title := textOrEmpty (ev.findChild "title"),
                        desc := textOrEmpty (ev.findChild "description") })
          | _, _, _ => .error (.badValue ("invalid literal for int: " ++ du))
        | _ => .error (.badValue ("cannot unpack duration " ++ du))
  | _, _ => .ok none

/-- A Python `for` loop collecting results, where the body may raise: the
first exception aborts the traversal. -/
def mapExcept {α β : Type} (f : α → Except ParseErr β) : List α → Except ParseErr (List β)
  | [] => .ok []
  | x :: xs =>
    match f x with
    | .error e => .error e
    | .ok y =>
      match mapExcept f xs with
      | .error e => .error e
      | .ok ys => .ok (y :: ys)

/-- The event an `event` element contributes to the service's list: `some`
for a completely parsed event, `none` for a skipped or failing one. -/
def parsedEventOf (ev : XElem) : Option Event :=
  match parseEvent ev with
  | .ok o => o
  | .error _ => none

/-- The per-`service` body of the parser: attributes (hyphenated variant
preferred, empty-string default) and the events collected in document order,
incomplete ones skipped. -/
def parseService (svc : XElem) : Except ParseErr Service :=
  match mapExcept parseEvent (childElems svc "event") with
  | .error e => .error e
  | .ok parsed =>
    .ok { service_id := truthyOr (svc.getAttr "service-id") (truthyOr (svc.getAttr "service_id") ""),
          service_name :=
            truthyOr (svc.getAttr "service-name") (truthyOr (svc.getAttr "service_name") ""),
          events := parsed.filterMap id }

mutual

/-- Preorder (document-order) listing of an element and its descendants. -/
def descendantsElem : XElem → List XElem
  | .mk t a ch tx => XElem.mk t a ch tx :: descendantsList ch

/-- Preorder (document-order) listing of the elements of a forest and their
descendants. -/
def descendantsList : List XElem → List XElem
  | [] => []
  | e :: rest => descendantsElem e ++ descendantsList rest

end

/-- Model of `root.findall(".//service")`: descendant elements (any depth,
root excluded) tagged `service`, in document order. -/
def findServices (root : XElem) : List XElem :=
  (descendantsList root.children).filter (fun e => e.tag == "service")

/-- Model of `str.lower()` at `String` type (ASCII scope). -/
def lowerS (s : String) : String := String.mk (s.data.map Char.toLower)

/-- Model of `parse_kringla_schedule(xml_text)` as a function of the parsed
element tree: check the root tag case-insensitively, then convert every
descendant `service` element. -/
def parse_kringla_schedule (root : XElem) : Except ParseErr (List Service) :=
  if lowerS root.tag ≠ "schedule" then .error (.unexpectedRoot root.tag)
  else mapExcept parseService (findServices root)

/-! ### The guide emitter: `xmltv_time`, `html.escape` and `emit_programme` -/

/-- A naive `datetime` by components, as consumed by `strftime`. -/
structure DateTime where
  year : Nat
  month : Nat
  day : Nat
  hour : Nat
  minute : Nat
  second : Nat
deriving DecidableEq

/-- Model of `strftime("%Y")`: four digits, zero-padded (faithful on the
`datetime` range `1000 ≤ year ≤ 9999`; the feed's years are four-digit). -/
def pad4 (n : Nat) : List Char :=
  [Nat.digitChar (n / 1000 % 10), Nat.digitChar (n / 100 % 10),
   Nat.digitChar (n / 10 % 10), Nat.digitChar (n % 10)]

/-- Model of a two-digit zero-padded `strftime` field (faithful on each
field's `datetime` range). -/
def pad2 (n : Nat) : List Char := [Nat.digitChar (n / 10 % 10), Nat.digitChar (n % 10)]

/-- Model of `xmltv_time(d)`: `d.strftime("%Y%m%d%H%M%S") + " +0000"`. -/
def xmltv_time (d : DateTime) : String :=
  String.mk (pad4 d.year ++ pad2 d.month ++ pad2 d.day ++ pad2 d.hour ++ pad2 d.minute ++
    pad2 d.second ++ " +0000".data)

/-- Place value read-back of a digit string (to state that the emitted
fourteen digits really are `YYYYMMDDHHMMSS`). -/
def digitsToNat (ds : List Char) : Nat := ds.foldl (fun a c => a * 10 + (c.toNat - 48)) 0

/-- The apostrophe character (avoids a quoted apostrophe literal). -/
def apostrophe : Char := Char.ofNat 39

/-- One `str.replace` pass with a one-character pattern, as `html.escape`
uses. -/
def repl1 (p : Char) (r : List Char) (l : List Char) : List Char :=
  l.flatMap (fun c => if c = p then r else [c])

/-- The five replacement passes of `html.escape(s, quote=True)`, in source
order: `&`, `<`, `>`, then the two quote characters. -/
def escChain (l : List Char) : List Char :=
  repl1 apostrophe "&#x27;".data
    (repl1 '"' "&quot;".data
      (repl1 '>' "&gt;".data
        (repl1 '<' "&lt;".data
          (repl1 '&' "&amp;".data l))))

/-- Model of `html.escape(s)` (quote=True, the default). -/
def html_escape (s : String) : String := String.mk (escChain s.data)

/-- The per-character entity table the spec describes: each occurrence of a
reserved character replaced by its markup entity.  `html_escape` is proved
equal to the character-wise map of this table. -/
def escChar (c : Char) : List Char :=
  if c = '&' then "&amp;".data
  else if c = '<' then "&lt;".data
  else if c = '>' then "&gt;".data
  else if c = '"' then "&quot;".data
  else if c = apostrophe then "&#x27;".data
  else [c]

/-- The event record as consumed by `emit_programme`: `datetime` endpoints
and text fields. -/
structure EventDT where
  start : DateTime
  stop : DateTime
  title : String
  desc : String
deriving DecidableEq

/-- The opening `programme` line with start, stop and channel attributes. -/
def progOpenLine (chan_id : String) (e : EventDT) : String :=
  "  <programme start=\"" ++ html_escape (xmltv_time e.start) ++ "\" stop=\"" ++
    html_escape (xmltv_time e.stop) ++ "\" channel=\"" ++ html_escape chan_id ++ "\">"

/-- Model of `emit_programme(out_lines, chan_id, e)`: append the programme
block to the accumulator; the title and desc child lines are appended only
when the corresponding text is truthy (non-empty). -/
def emit_programme (out_lines : List String) (chan_id : String) (e : EventDT) : List String :=
  ((out_lines ++ [progOpenLine chan_id e]) ++
      (if e.title ≠ "" then ["    <title>" ++ html_escape e.title ++ "</title>"] else []) ++
      (if e.desc ≠ "" then ["    <desc>" ++ html_escape e.desc ++ "</desc>"] else [])) ++
    ["  </programme>"]

/-! ### Lemmas about the interval reconciler -/

theorem clampStep_cons_succ (a : Event) (l : List Event) (i : Nat) :
    clampStep (a :: l) (i + 1) = a :: clampStep l i := by
  unfold clampStep
  cases h1 : l[i]? <;> cases h2 : l[i + 1]? <;>
    simp [List.getElem?_cons_succ, h1, h2, List.set_cons_succ]
  split <;> simp

theorem foldl_clampStep_shift (is : List Nat) :
    ∀ (a : Event) (l : List Event),
      is.foldl (fun evs i => clampStep evs (i + 1)) (a :: l) = a :: is.foldl clampStep l := by
  induction is with
  | nil => intro a l; rfl
  | cons i is ih => intro a l; simp only [List.foldl_cons, clampStep_cons_succ, ih]

theorem clampStep_zero (a b : Event) (rest : List Event) :
    clampStep (a :: b :: rest) 0 =
      (if b.start < a.stop then { a with stop := b.start } else a) :: b :: rest := by
  unfold clampStep
  split <;> simp_all
  split <;> rfl

/-- The imperative loop of `clamp_overlaps_shorten_previous` computes the pure
left-to-right pass `clampPairs`.  (The loop body at index `i` only reads
`events[i].stop` and `events[i+1].start` and only writes `events[i].stop`, so
successive iterations do not interfere.) -/
theorem clampLoop_eq_pairs : (evs : List Event) → clampLoop evs = clampPairs evs
  | [] => rfl
  | [e] => rfl
  | a :: b :: rest => by
    unfold clampLoop
    have hlen : (a :: b :: rest).length - 1 = rest.length + 1 := by simp
    rw [hlen, List.range_succ_eq_map, List.foldl_cons, List.foldl_map, clampStep_zero]
    rw [show (fun (evs : List Event) (i : Nat) => clampStep evs (Nat.succ i)) =
          (fun (evs : List Event) (i : Nat) => clampStep evs (i + 1)) from rfl]
    rw [foldl_clampStep_shift]
    have h := clampLoop_eq_pairs (b :: rest)
    unfold clampLoop at h
    simp only [List.length_cons, Nat.add_sub_cancel] at h
    rw [h]
    rfl

theorem clampPairs_map_start : (evs : List Event) →
    (clampPairs evs).map Event.start = evs.map Event.start
  | [] => rfl
  | [e] => rfl
  | a :: b :: rest => by
    have h := clampPairs_map_start (b :: rest)
    simp only [clampPairs, List.map_cons] at h ⊢
    rw [h]
    split <;> rfl

theorem mem_clampPairs_start {evs : List Event} {x : Event} (hx : x ∈ clampPairs evs) :
    ∃ y ∈ evs, x.start = y.start := by
  have hmap : x.start ∈ (clampPairs evs).map Event.start := List.mem_map_of_mem _ hx
  rw [clampPairs_map_start] at hmap
  obtain ⟨y, hy, hxy⟩ := List.mem_map.mp hmap
  exact ⟨y, hy, hxy.symm⟩

/-- On a start-sorted input, the clamping pass leaves every event's stop at or
before the start of every later event. -/
theorem clampPairs_pairwise : (evs : List Event) →
    evs.Pairwise (fun a b => a.start ≤ b.start) →
    (clampPairs evs).Pairwise (fun a b => a.stop ≤ b.start)
  | [], _ => List.Pairwise.nil
  | [e], _ => by simp [clampPairs]
  | a :: b :: rest, hp => by
    rw [List.pairwise_cons] at hp
    obtain ⟨ha, hp'⟩ := hp
    have ih := clampPairs_pairwise (b :: rest) hp'
    simp only [clampPairs]
    rw [List.pairwise_cons]
    refine ⟨?_, ih⟩
    intro x hx
    obtain ⟨y, hy, hxy⟩ := mem_clampPairs_start hx
    have hby : b.start ≤ y.start := by
      rcases List.mem_cons.mp hy with h | h
      · exact h ▸ le_refl _
      · exact (List.pairwise_cons.mp hp').1 y h
    have hstop : (if b.start < a.stop then { a with stop := b.start } else a).stop ≤ b.start := by
      split
      · rfl
      · exact le_of_not_lt (by assumption)
    calc (if b.start < a.stop then { a with stop := b.start } else a).stop
        ≤ b.start := hstop
      _ ≤ y.start := hby
      _ = x.start := hxy.symm

/-- The clamping pass is the identity on inputs with no adjacent overlap. -/
theorem clampPairs_eq_self : (evs : List Event) →
    List.Chain' (fun a b => a.stop ≤ b.start) evs → clampPairs evs = evs
  | [], _ => rfl
  | [e], _ => rfl
  | a :: b :: rest, hc => by
    rw [List.chain'_cons] at hc
    simp only [clampPairs]
    rw [if_neg (not_lt.mpr hc.1), clampPairs_eq_self (b :: rest) hc.2]

theorem clamp_eq_filter (evs : List Event) :
    clamp_overlaps_shorten_previous evs = (clampPairs evs).filter (fun e => e.start < e.stop) := by
  unfold clamp_overlaps_shorten_previous
  rw [clampLoop_eq_pairs]

theorem clamp_pos (evs : List Event) :
    ∀ e ∈ clamp_overlaps_shorten_previous evs, e.start < e.stop := by
  intro e he
  unfold clamp_overlaps_shorten_previous at he
  simpa using (List.mem_filter.mp he).2

theorem clamp_chain (evs : List Event) (hs : evs.Pairwise (fun a b => a.start ≤ b.start)) :
    List.Chain' (fun a b => a.stop ≤ b.start) (clamp_overlaps_shorten_previous evs) := by
  rw [clamp_eq_filter]
  exact (List.Pairwise.sublist (List.filter_sublist _) (clampPairs_pairwise evs hs)).chain'

theorem clamp_eq_self_of (evs : List Event)
    (hc : List.Chain' (fun a b => a.stop ≤ b.start) evs)
    (hpos : ∀ e ∈ evs, e.start < e.stop) :
    clamp_overlaps_shorten_previous evs = evs := by
  rw [clamp_eq_filter, clampPairs_eq_self evs hc]
  exact List.filter_eq_self.mpr (fun e he => decide_eq_true (hpos e he))

/-! ### Lemmas about the listing resolver -/

theorem lexLe_refl : ∀ l : List Char, lexLe l l = true
  | [] => rfl
  | a :: as => by
    simp only [lexLe, lt_irrefl, if_false]
    exact lexLe_refl as

theorem lexLe_total : ∀ a b : List Char, lexLe a b = true ∨ lexLe b a = true
  | [], _ => Or.inl rfl
  | _ :: _, [] => Or.inr rfl
  | a :: as, b :: bs => by
    rcases lt_trichotomy a b with h | h | h
    · left; simp [lexLe, h]
    · subst h
      rcases lexLe_total as bs with h' | h'
      · left; simp [lexLe, h']
      · right; simp [lexLe, h']
    · right; simp [lexLe, h]

theorem lexLe_trans : ∀ a b c : List Char,
    lexLe a b = true → lexLe b c = true → lexLe a c = true
  | [], _, _, _, _ => rfl
  | _ :: _, [], _, h1, _ => by simp [lexLe] at h1
  | _ :: _, _ :: _, [], _, h2 => by simp [lexLe] at h2
  | a :: as, b :: bs, c :: cs, h1, h2 => by
    simp only [lexLe] at h1 h2 ⊢
    rcases lt_trichotomy a b with hab | hab | hab
    · rcases lt_trichotomy b c with hbc | hbc | hbc
      · simp [lt_trans hab hbc]
      · subst hbc; simp [hab]
      · rw [if_neg (lt_asymm hbc), if_pos hbc] at h2; cases h2
    · subst hab
      rw [if_neg (lt_irrefl a), if_neg (lt_irrefl a)] at h1
      rcases lt_trichotomy a c with hac | hac | hac
      · simp [hac]
      · subst hac
        rw [if_neg (lt_irrefl a), if_neg (lt_irrefl a)] at h2
        simp only [lt_irrefl, if_false]
        exact lexLe_trans as bs cs h1 h2
      · rw [if_neg (lt_asymm hac), if_pos hac] at h2; cases h2
    · rw [if_neg (lt_asymm hab), if_pos hab] at h1; cases h1

theorem mem_insertLe {x s : List Char} : ∀ l, x ∈ insertLe s l ↔ x = s ∨ x ∈ l
  | [] => by simp [insertLe]
  | t :: ts => by
    simp only [insertLe]
    split
    · simp only [List.mem_cons]
    · rw [List.mem_cons, mem_insertLe ts, List.mem_cons]
      tauto

theorem pairwise_insertLe (s : List Char) :
    ∀ l, l.Pairwise (fun a b => lexLe a b = true) →
      (insertLe s l).Pairwise (fun a b => lexLe a b = true)
  | [], _ => by simp [insertLe]
  | t :: ts, hp => by
    simp only [insertLe]
    split
    · rename_i hst
      rw [List.pairwise_cons]
      refine ⟨?_, hp⟩
      intro x hx
      rcases List.mem_cons.mp hx with rfl | hx'
      · exact hst
      · exact lexLe_trans s t x hst ((List.pairwise_cons.mp hp).1 x hx')
    · rename_i hst
      have hts : lexLe t s = true := by
        rcases lexLe_total s t with h | h
        · exact absurd h hst
        · exact h
      rw [List.pairwise_cons] at hp
      rw [List.pairwise_cons]
      refine ⟨?_, pairwise_insertLe s ts hp.2⟩
      intro x hx
      rcases (mem_insertLe ts).mp hx with rfl | hx'
      · exact hts
      · exact hp.1 x hx'

theorem pairwise_sortStr : ∀ l, (sortStr l).Pairwise (fun a b => lexLe a b = true)
  | [] => List.Pairwise.nil
  | x :: xs => pairwise_insertLe x _ (pairwise_sortStr xs)

theorem mem_sortStr {x : List Char} : ∀ l, x ∈ sortStr l ↔ x ∈ l
  | [] => Iff.rfl
  | y :: ys => by
    rw [show sortStr (y :: ys) = insertLe y (sortStr ys) from rfl, mem_insertLe,
      mem_sortStr ys, List.mem_cons]

/-- In a list that is pairwise `lexLe`-sorted, the last element is an upper
bound of every element. -/
theorem pairwise_getLast?_max :
    ∀ (l : List (List Char)) (m : List Char),
      l.Pairwise (fun a b => lexLe a b = true) → l.getLast? = some m →
      ∀ x ∈ l, lexLe x m = true
  | [], _, _, h, _, hx => by cases h
  | [a], m, _, h, x, hx => by
    simp only [List.getLast?_singleton, Option.some.injEq] at h
    simp only [List.mem_singleton] at hx
    subst h; subst hx
    exact lexLe_refl x
  | a :: b :: ts, m, hp, h, x, hx => by
    have h' : (b :: ts).getLast? = some m := by
      rwa [List.getLast?_cons_cons] at h
    rcases List.mem_cons.mp hx with rfl | hx'
    · have hm : m ∈ b :: ts := List.mem_of_getLast?_eq_some h'
      exact (List.pairwise_cons.mp hp).1 m hm
    · exact pairwise_getLast?_max (b :: ts) m (List.pairwise_cons.mp hp).2 h' x hx'

theorem tryMatch_spec {cs : List Char} {k : Nat} (h : tryMatch cs = some k) :
    5 ≤ k ∧ k ≤ (cs.takeWhile isClassChar).length ∧
      isXmlEnd ((cs.takeWhile isClassChar).take k) = true := by
  unfold tryMatch lastXmlEnd at h
  have hmem := List.mem_of_getLast?_eq_some h
  rw [List.mem_filter, List.mem_range] at hmem
  obtain ⟨hr, hx⟩ := hmem
  have h5 : 5 ≤ ((cs.takeWhile isClassChar).take k).length := by
    unfold isXmlEnd at hx
    exact of_decide_eq_true (((Bool.and_eq_true _ _).mp hx).1)
  refine ⟨?_, Nat.lt_succ_iff.mp hr, hx⟩
  rw [List.length_take] at h5
  exact le_trans h5 (min_le_left _ _)

theorem token_take (cs : List Char) (k : Nat) (hk : k ≤ (cs.takeWhile isClassChar).length) :
    cs.take k = (cs.takeWhile isClassChar).take k := by
  obtain ⟨s, hs⟩ := List.takeWhile_prefix (l := cs) isClassChar
  conv_lhs => rw [← hs]
  rw [List.take_append_of_le_length hk]

/-- Every token produced by the regex scan consists of class characters only
and ends (case-insensitively) in `.xml`. -/
theorem scanFuel_tokens :
    ∀ (fuel : Nat) (cs : List Char) (t : List Char), t ∈ scanFuel fuel cs →
      (∀ c ∈ t, isClassChar c = true) ∧ isXmlEnd t = true := by
  intro fuel
  induction fuel with
  | zero => intro cs t ht; simp [scanFuel] at ht
  | succ f ih =>
    intro cs t ht
    cases cs with
    | nil => simp [scanFuel] at ht
    | cons c rest =>
      cases htm : tryMatch (c :: rest) with
      | none =>
        rw [scanFuel, htm] at ht
        exact ih rest t ht
      | some k =>
        rw [scanFuel, htm] at ht
        rcases List.mem_cons.mp ht with rfl | ht'
        · obtain ⟨hk5, hkle, hx⟩ := tryMatch_spec htm
          rw [token_take _ _ hkle]
          refine ⟨?_, hx⟩
          intro ch hch
          exact List.mem_takeWhile_imp (List.take_subset _ _ hch)
        · exact ih _ t ht'

theorem token_no_query {t : List Char} (h : ∀ c ∈ t, isClassChar c = true) :
    stripQuery t = t := by
  apply List.takeWhile_eq_self_iff.mpr
  intro a ha
  have hc := h a ha
  simp only [bne_iff_ne, ne_eq]
  rintro rfl
  simp [isClassChar] at hc

theorem xml_suffix {t : List Char} (hx : isXmlEnd t = true) :
    ['.', 'x', 'm', 'l'] <:+ lowerL t := by
  unfold isXmlEnd at hx
  obtain ⟨h5, heq⟩ := (Bool.and_eq_true _ _).mp hx
  have heq' : (t.drop (t.length - 4)).map Char.toLower = ['.', 'x', 'm', 'l'] := by
    simpa using heq
  have hdrop : (lowerL t).drop (t.length - 4) = ['.', 'x', 'm', 'l'] := by
    unfold lowerL
    rw [← List.map_drop]
    exact heq'
  calc ['.', 'x', 'm', 'l'] = (lowerL t).drop (t.length - 4) := hdrop.symm
    _ <:+ lowerL t := List.drop_suffix _ _

/-- A token produced by the pattern never ends in `xmltv.dtd`
(case-insensitively): its last character is `l`, not `d`. -/
theorem token_not_dtd {t : List Char} (hx : isXmlEnd t = true) :
    ("xmltv.dtd".data.isSuffixOf (lowerL t)) = false := by
  by_contra h
  rw [Bool.not_eq_false, List.isSuffixOf_iff_suffix] at h
  obtain ⟨u, hu⟩ := h
  obtain ⟨v, hv⟩ := xml_suffix hx
  have h1 : (lowerL t).getLast? = some 'd' := by
    rw [← hu, List.getLast?_append_of_ne_nil u (by decide)]
    decide
  have h2 : (lowerL t).getLast? = some 'l' := by
    rw [← hv, List.getLast?_append_of_ne_nil v (by decide)]
    decide
  rw [h1] at h2
  simp at h2

/-- Query-stripping and the dtd filter never change the candidate set. -/
theorem candidatesOf_eq_raw (listing : String) : candidatesOf listing = rawCandidatesOf listing := by
  unfold candidatesOf rawCandidatesOf
  have hmap : (findallXml listing).map stripQuery = findallXml listing := by
    have h1 : (findallXml listing).map stripQuery = (findallXml listing).map id :=
      List.map_congr_left (fun t ht => token_no_query (scanFuel_tokens _ _ t ht).1)
    rw [h1, List.map_id]
  rw [hmap]
  apply List.filter_eq_self.mpr
  intro t ht
  have ht' : t ∈ findallXml listing :=
    List.dedup_subset _ ((mem_sortStr _).mp ht)
  simp [token_not_dtd (scanFuel_tokens _ _ t ht').2]

theorem head?_dropWhile_false {p : Char → Bool} :
    ∀ (l : List Char) (c : Char), (l.dropWhile p).head? = some c → p c = false
  | [], c, h => by simp at h
  | a :: as, c, h => by
    rw [List.dropWhile_cons] at h
    split at h
    · exact head?_dropWhile_false as c h
    · simp only [List.head?_cons, Option.some.injEq] at h
      subst h
      rename_i hpa
      simp only [Bool.not_eq_true] at hpa
      exact hpa

theorem rstripSlash_no_slash (cs : List Char) : (rstripSlashL cs).getLast? ≠ some '/' := by
  unfold rstripSlashL
  rw [List.getLast?_reverse]
  intro h
  have hp := head?_dropWhile_false _ _ h
  simp at hp

theorem lstripSlash_no_slash (cs : List Char) : (lstripSlashL cs).head? ≠ some '/' := by
  unfold lstripSlashL
  intro h
  have hp := head?_dropWhile_false _ _ h
  simp at hp

theorem newline_not_mem_escapeNl : ∀ cs : List Char, '\n' ∉ escapeNl cs
  | [] => by simp [escapeNl]
  | c :: cs => by
    simp only [escapeNl, List.flatMap_cons, List.mem_append]
    rintro (h | h)
    · split at h
      · simp at h
      · rename_i hc
        simp only [List.mem_singleton] at h
        exact hc h.symm
    · exact newline_not_mem_escapeNl cs h

/-! ### Lemmas about the schedule parser -/

theorem parseEvent_error_shape {ev : XElem} {e : ParseErr} (h : parseEvent ev = .error e) :
    ∃ m, e = ParseErr.badValue m := by
  unfold parseEvent at h
  split at h
  · split at h
    · cases h
    · split at h
      · exact ⟨_, (Except.error.inj h).symm⟩
      · split at h
        · split at h
          · cases h
          · exact ⟨_, (Except.error.inj h).symm⟩
        · exact ⟨_, (Except.error.inj h).symm⟩
  · cases h

theorem mapExcept_error_shape {α β : Type} {f : α → Except ParseErr β}
    (hf : ∀ x e, f x = .error e → ∃ m, e = ParseErr.badValue m) :
    ∀ (l : List α) (e : ParseErr), mapExcept f l = .error e → ∃ m, e = ParseErr.badValue m
  | [], e, h => by cases h
  | x :: xs, e, h => by
    unfold mapExcept at h
    split at h
    · rename_i he
      exact hf x e (by rw [he, ← Except.error.inj h])
    · split at h
      · rename_i he
        exact mapExcept_error_shape hf xs e (by rw [he, ← Except.error.inj h])
      · cases h

theorem parseService_error_shape {svc : XElem} {e : ParseErr}
    (h : parseService svc = .error e) : ∃ m, e = ParseErr.badValue m := by
  unfold parseService at h
  split at h
  · rename_i he
    exact mapExcept_error_shape (fun x e hx => parseEvent_error_shape hx) _ e
      (by rw [he, ← Except.error.inj h])
  · cases h

theorem mapExcept_ok_filterMap :
    ∀ (l : List XElem) (ys : List (Option Event)), mapExcept parseEvent l = .ok ys →
      ys.filterMap id = l.filterMap parsedEventOf
  | [], ys, h => by
    cases h
    rfl
  | x :: xs, ys, h => by
    unfold mapExcept at h
    split at h
    · cases h
    · rename_i y hy
      split at h
      · cases h
      · rename_i ys' hys'
        cases h
        rw [List.filterMap_cons, List.filterMap_cons,
          mapExcept_ok_filterMap xs ys' hys']
        have hy' : parsedEventOf x = y := by
          unfold parsedEventOf
          rw [hy]
        rw [hy']
        cases y <;> rfl

/-- An event element whose start-time attribute (both naming variants) or
whose duration attribute is missing is skipped without an error. -/
theorem parseEvent_skip {ev : XElem}
    (h : (ev.getAttr "start-time" = none ∧ ev.getAttr "start_time" = none)
          ∨ ev.getAttr "duration" = none) :
    parseEvent ev = .ok none := by
  unfold parseEvent
  rcases h with ⟨h1, h2⟩ | h3
  · rw [show pyOr2 (ev.getAttr "start-time") (ev.getAttr "start_time") = none by
      rw [h1, h2]; rfl]
  · rw [h3]
    split
    · rename_i st du h1 h2
      cases h2
    · rfl

/-! ### Lemmas about the guide emitter -/

theorem digitChar_isDigit {m : Nat} (h : m < 10) : (Nat.digitChar m).isDigit = true := by
  interval_cases m <;> decide

theorem digitChar_val {m : Nat} (h : m < 10) : (Nat.digitChar m).toNat - 48 = m := by
  interval_cases m <;> decide

theorem digitsToNat_pad4 {n : Nat} (h : n ≤ 9999) : digitsToNat (pad4 n) = n := by
  simp only [pad4, digitsToNat, List.foldl]
  rw [digitChar_val (Nat.mod_lt _ (by norm_num)), digitChar_val (Nat.mod_lt _ (by norm_num)),
    digitChar_val (Nat.mod_lt _ (by norm_num)), digitChar_val (Nat.mod_lt _ (by norm_num))]
  omega

theorem digitsToNat_pad2 {n : Nat} (h : n ≤ 99) : digitsToNat (pad2 n) = n := by
  simp only [pad2, digitsToNat, List.foldl]
  rw [digitChar_val (Nat.mod_lt _ (by norm_num)), digitChar_val (Nat.mod_lt _ (by norm_num))]
  omega

theorem pad4_digits (n : Nat) : ∀ c ∈ pad4 n, c.isDigit = true := by
  intro c hc
  simp only [pad4, List.mem_cons, List.not_mem_nil, or_false] at hc
  rcases hc with rfl | rfl | rfl | rfl <;> exact digitChar_isDigit (Nat.mod_lt _ (by norm_num))

theorem pad2_digits (n : Nat) : ∀ c ∈ pad2 n, c.isDigit = true := by
  intro c hc
  simp only [pad2, List.mem_cons, List.not_mem_nil, or_false] at hc
  rcases hc with rfl | rfl <;> exact digitChar_isDigit (Nat.mod_lt _ (by norm_num))

theorem repl1_append (p : Char) (r : List Char) (l1 l2 : List Char) :
    repl1 p r (l1 ++ l2) = repl1 p r l1 ++ repl1 p r l2 := by
  unfold repl1
  exact List.flatMap_append l1 l2 _

theorem escChain_append (l1 l2 : List Char) :
    escChain (l1 ++ l2) = escChain l1 ++ escChain l2 := by
  unfold escChain
  rw [repl1_append, repl1_append, repl1_append, repl1_append, repl1_append]

theorem escChain_single (c : Char) : escChain [c] = escChar c := by
  by_cases h1 : c = '&'
  · subst h1; rfl
  by_cases h2 : c = '<'
  · subst h2; rfl
  by_cases h3 : c = '>'
  · subst h3; rfl
  by_cases h4 : c = '"'
  · subst h4; rfl
  by_cases h5 : c = apostrophe
  · subst h5; rfl
  simp [escChain, repl1, escChar, h1, h2, h3, h4, h5]

/-- The sequential replacement chain of `html.escape` acts character-wise:
it equals the map of the per-character entity table. -/
theorem escChain_eq_flatMap : ∀ l : List Char, escChain l = l.flatMap escChar
  | [] => rfl
  | c :: l => by
    have h : (c :: l) = [c] ++ l := rfl
    rw [h, escChain_append, List.flatMap_append, escChain_eq_flatMap l, escChain_single]
    simp

theorem escChar_no_special (a c : Char) (hc : c ∈ escChar a) :
    c ≠ '<' ∧ c ≠ '>' ∧ c ≠ '"' := by
  unfold escChar at hc
  split at hc
  · exact (by decide : ∀ x ∈ "&amp;".data, x ≠ '<' ∧ x ≠ '>' ∧ x ≠ '"') c hc
  split at hc
  · exact (by decide : ∀ x ∈ "&lt;".data, x ≠ '<' ∧ x ≠ '>' ∧ x ≠ '"') c hc
  split at hc
  · exact (by decide : ∀ x ∈ "&gt;".data, x ≠ '<' ∧ x ≠ '>' ∧ x ≠ '"') c hc
  split at hc
  · exact (by decide : ∀ x ∈ "&quot;".data, x ≠ '<' ∧ x ≠ '>' ∧ x ≠ '"') c hc
  split at hc
  · exact (by decide : ∀ x ∈ "&#x27;".data, x ≠ '<' ∧ x ≠ '>' ∧ x ≠ '"') c hc
  · rename_i n1 n2 n3 n4 n5
    rcases List.mem_singleton.mp hc with rfl
    exact ⟨n2, n3, n4⟩

theorem noRawSpecial (l : List Char) (c : Char) (hc : c ∈ l.flatMap escChar) :
    c ≠ '<' ∧ c ≠ '>' ∧ c ≠ '"' := by
  rw [List.mem_flatMap] at hc
  obtain ⟨a, _, hca⟩ := hc
  exact escChar_no_special a c hca

/-! ### The claims -/

/-- Claim C1: for every input sequence sorted ascending by start time, every
event in the output of `clamp_overlaps_shorten_previous` satisfies
`stop > start`, and consecutive events of the output never overlap: the
earlier event's stop is at most the later event's start. -/
theorem claim_C1 (evs : List Event) (hs : evs.Pairwise (fun a b => a.start ≤ b.start)) :
    (∀ e ∈ clamp_overlaps_shorten_previous evs, e.start < e.stop) ∧
    List.Chain' (fun a b => a.stop ≤ b.start) (clamp_overlaps_shorten_previous evs) :=
  ⟨clamp_pos evs, clamp_chain evs hs⟩

/-- Witness for C1 at a concrete sorted two-event input. -/
theorem claim_C1_witness :
    List.Chain' (fun a b => a.stop ≤ b.start)
      (clamp_overlaps_shorten_previous
        [⟨600, 640, "A", ""⟩, ⟨630, 660, "B", ""⟩]) :=
  (claim_C1 [⟨600, 640, "A", ""⟩, ⟨630, 660, "B", ""⟩] (by decide)).2

/-- Claim C3: `clamp_overlaps_shorten_previous` is the single left-to-right
pass over consecutive pairs (whenever `events[i].stop > events[i+1].start`,
that stop is lowered to that start; start times are never modified) followed
by dropping every event with `stop ≤ start`; on the overlap example
(10:00–10:40, 10:30–11:00) it yields (10:00–10:30, 10:30–11:00), and on the
degenerate example (10:00–10:40, 10:00–10:10) it yields only (10:00–10:10)
(times in minutes). -/
theorem claim_C3 (evs : List Event) :
    (clamp_overlaps_shorten_previous evs = (clampPairs evs).filter (fun e => e.start < e.stop)
      ∧ (clampPairs evs).map Event.start = evs.map Event.start)
    ∧ clamp_overlaps_shorten_previous
        [⟨600, 640, "A", ""⟩, ⟨630, 660, "B", ""⟩] =
        [⟨600, 630, "A", ""⟩, ⟨630, 660, "B", ""⟩]
    ∧ clamp_overlaps_shorten_previous
        [⟨600, 640, "A", ""⟩, ⟨600, 610, "B", ""⟩] =
        [⟨600, 610, "B", ""⟩] :=
  ⟨⟨clamp_eq_filter evs, clampPairs_map_start evs⟩, by decide, by decide⟩

/-- Claim C4: `clamp_overlaps_shorten_previous` is the identity on every
start-sorted, non-overlapping sequence of positive-length events; in
particular (10:00–10:30, 10:30–11:00) reconciles to itself, and the function
is idempotent on start-sorted inputs. -/
theorem claim_C4 (evs : List Event) :
    (evs.Pairwise (fun a b => a.start ≤ b.start) →
      List.Chain' (fun a b => a.stop ≤ b.start) evs →
      (∀ e ∈ evs, e.start < e.stop) →
      clamp_overlaps_shorten_previous evs = evs)
    ∧ clamp_overlaps_shorten_previous
        [⟨600, 630, "A", ""⟩, ⟨630, 660, "B", ""⟩] =
        [⟨600, 630, "A", ""⟩, ⟨630, 660, "B", ""⟩]
    ∧ (evs.Pairwise (fun a b => a.start ≤ b.start) →
      clamp_overlaps_shorten_previous (clamp_overlaps_shorten_previous evs) =
        clamp_overlaps_shorten_previous evs) := by
  refine ⟨fun _ hc hpos => clamp_eq_self_of evs hc hpos, by decide, fun hs => ?_⟩
  exact clamp_eq_self_of _ (clamp_chain evs hs) (clamp_pos evs)

/-- Witness for C4: the already-reconciled two-event input is returned
unchanged, with all three hypotheses discharged concretely. -/
theorem claim_C4_witness :
    clamp_overlaps_shorten_previous [⟨600, 630, "A", ""⟩, ⟨630, 660, "B", ""⟩] =
      [⟨600, 630, "A", ""⟩, ⟨630, 660, "B", ""⟩] :=
  (claim_C4 [⟨600, 630, "A", ""⟩, ⟨630, 660, "B", ""⟩]).1 (by decide)
    (by simp [List.chain'_cons]) (by decide)

/-- Claim C2: whenever the filtered candidate list is non-empty,
`pick_latest_xml` succeeds with its lexicographically maximal element; a
scheme-prefixed candidate is returned unchanged, and otherwise the candidate
is joined to the base with exactly one slash at the join point (the joined
base ends in no slash, the joined candidate starts with no slash). -/
theorem claim_C2 (base_url listing : String) (latest : List Char)
    (h : (candidatesOf listing).getLast? = some latest) :
    latest ∈ candidatesOf listing
    ∧ (∀ c ∈ candidatesOf listing, lexLe c latest = true)
    ∧ pick_latest_xml base_url listing =
        .ok (if "http://".data.isPrefixOf latest || "https://".data.isPrefixOf latest
             then String.mk latest
             else String.mk (rstripSlashL base_url.data ++ '/' :: lstripSlashL latest))
    ∧ (rstripSlashL base_url.data).getLast? ≠ some '/'
    ∧ (lstripSlashL latest).head? ≠ some '/' := by
  refine ⟨List.mem_of_getLast?_eq_some h, ?_, ?_, rstripSlash_no_slash _, lstripSlash_no_slash _⟩
  · intro c hc
    have hp : (candidatesOf listing).Pairwise (fun a b => lexLe a b = true) :=
      List.Pairwise.sublist (List.filter_sublist _) (pairwise_sortStr _)
    exact pairwise_getLast?_max _ latest hp h c hc
  · simp only [pick_latest_xml, h]
    split <;> rfl

/-- Witness for C2 on the listing "a.xml b.xml" with a relative maximum. -/
theorem claim_C2_witness :
    pick_latest_xml "http://h/x/" "a.xml b.xml" = .ok "http://h/x/b.xml"
    ∧ lexLe "a.xml".data "b.xml".data = true :=
  ⟨by
    have h := (claim_C2 "http://h/x/" "a.xml b.xml" "b.xml".data (by decide)).2.2.1
    rw [h]
    rfl,
   (claim_C2 "http://h/x/" "a.xml b.xml" "b.xml".data (by decide)).2.1 "a.xml".data (by decide)⟩

/-- Counterexample to C5 as stated: the failure message does not normalize
every control character to a printable escape; a listing consisting of a tab
produces a message still containing the raw tab (code point 9, a control
character).  Only newlines are escaped. -/
theorem claim_C5_counterexample :
    pick_latest_xml "http://h/" "\t" =
      .error "No .xml filenames found at http://h/. Page starts with: \t"
    ∧ '\t' ∈ "No .xml filenames found at http://h/. Page starts with: \t".data
    ∧ '\t'.toNat < 32 :=
  ⟨rfl, by decide, by decide⟩

/-- Claim C5 (amended): `pick_latest_xml` fails exactly when zero candidates
remain after filtering, and the failure message then embeds the first 1200
characters of the fetched listing with newline characters (only) replaced by
the two-character escape, so the embedded snippet is newline-free. -/
theorem claim_C5 (base_url listing : String) :
    ((∃ m, pick_latest_xml base_url listing = .error m) ↔ candidatesOf listing = [])
    ∧ (candidatesOf listing = [] →
        pick_latest_xml base_url listing = .error (noScheduleMsg base_url listing)
        ∧ noScheduleMsg base_url listing =
            "No .xml filenames found at " ++ base_url ++ ". Page starts with: " ++
              String.mk (escapeNl (listing.data.take 1200))
        ∧ '\n' ∉ escapeNl (listing.data.take 1200)) := by
  constructor
  · constructor
    · rintro ⟨m, hm⟩
      cases hl : (candidatesOf listing).getLast? with
      | none => exact List.getLast?_eq_none_iff.mp hl
      | some latest =>
        simp only [pick_latest_xml, hl] at hm
        split at hm <;> simp at hm
    · intro he
      refine ⟨noScheduleMsg base_url listing, ?_⟩
      simp only [pick_latest_xml, he]
      rfl
  · intro he
    refine ⟨?_, rfl, newline_not_mem_escapeNl _⟩
    simp only [pick_latest_xml, he]
    rfl

/-- Witness for C5 (amended) at the empty listing. -/
theorem claim_C5_witness :
    pick_latest_xml "http://h/" "" = .error (noScheduleMsg "http://h/" "") :=
  ((claim_C5 "http://h/" "").2 rfl).1

/-- Claim C6: `parse_kringla_schedule` fails with `unexpectedRoot`, carrying
the actual root tag, exactly when the root tag lowercased is not `schedule`;
in particular a `program` root fails naming `program`. -/
theorem claim_C6 :
    (∀ root : XElem,
      (lowerS root.tag ≠ "schedule" →
        parse_kringla_schedule root = .error (.unexpectedRoot root.tag))
      ∧ (∀ t, parse_kringla_schedule root = .error (.unexpectedRoot t) →
          t = root.tag ∧ lowerS root.tag ≠ "schedule"))
    ∧ parse_kringla_schedule (XElem.mk "program" [] [] none) =
        .error (.unexpectedRoot "program") := by
  refine ⟨fun root => ⟨?_, ?_⟩, rfl⟩
  · intro hne
    unfold parse_kringla_schedule
    rw [if_pos hne]
  · intro t h
    by_cases hr : lowerS root.tag = "schedule"
    · exfalso
      unfold parse_kringla_schedule at h
      rw [if_neg (by simpa using hr)] at h
      obtain ⟨m, hm⟩ := mapExcept_error_shape (fun x e hx => parseService_error_shape hx) _ _ h
      cases hm
    · unfold parse_kringla_schedule at h
      rw [if_pos hr] at h
      exact ⟨(ParseErr.unexpectedRoot.inj (Except.error.inj h)).symm, hr⟩

/-- Witness for C6 at the `program` root. -/
theorem claim_C6_witness :
    parse_kringla_schedule (XElem.mk "program" [] [] none) =
      .error (.unexpectedRoot "program") :=
  (claim_C6.1 (XElem.mk "program" [] [] none)).1 (by decide)

/-- Claim C7: an event element missing its start-time attribute (both naming
variants) or its duration attribute is skipped with no error, and whenever a
service parses successfully its event list is exactly the document-order
sequence of contributions of its `event` children (complete events parsed,
incomplete ones excluded); the concrete two-event service (second event
missing `duration`) parses to a one-event service. -/
theorem claim_C7 :
    (∀ (sv : XElem) (s : Service), parseService sv = .ok s →
      s.events = (childElems sv "event").filterMap parsedEventOf)
    ∧ (∀ ev : XElem,
        ((ev.getAttr "start-time" = none ∧ ev.getAttr "start_time" = none)
          ∨ ev.getAttr "duration" = none) →
        parseEvent ev = .ok none)
    ∧ parseService (XElem.mk "service" [("service-id", "sid")]
        [XElem.mk "event" [("start-time", "2026-01-14 08:05:00"), ("duration", "01:00:00")]
           [XElem.mk "title" [] [] (some "A")] none,
         XElem.mk "event" [("start-time", "2026-01-14 09:05:00")] [] none] none) =
        .ok ⟨"sid", "", [⟨63903974700, 63903978300, "A", ""⟩]⟩ := by
  refine ⟨?_, fun ev h => parseEvent_skip h, rfl⟩
  intro sv s h
  unfold parseService at h
  split at h
  · cases h
  · rename_i parsed hp
    cases h
    show List.filterMap id parsed = _
    exact mapExcept_ok_filterMap _ parsed hp

/-- Witness for C7: a concrete event element missing its duration attribute
is skipped without error. -/
theorem claim_C7_witness :
    parseEvent (XElem.mk "event" [("start-time", "2026-01-14 09:05:00")] [] none) = .ok none :=
  claim_C7.2.1 (XElem.mk "event" [("start-time", "2026-01-14 09:05:00")] [] none)
    (Or.inr rfl)

/-- Claim C8: for every valid event timestamp, `xmltv_time` emits fourteen
digits that read back as YYYYMMDDHHMMSS, followed by a single space and the
literal `+0000`; in particular 2026-01-14 08:05:00 is emitted as exactly
`20260114080500 +0000`. -/
theorem claim_C8 (d : DateTime) (_hy1 : 1000 ≤ d.year) (hy2 : d.year ≤ 9999)
    (hmo : d.month ≤ 12) (hd : d.day ≤ 31) (hh : d.hour ≤ 23)
    (hmi : d.minute ≤ 59) (hs : d.second ≤ 59) :
    (∃ digits : List Char,
      (xmltv_time d).data = digits ++ " +0000".data
      ∧ digits.length = 14
      ∧ (∀ c ∈ digits, c.isDigit = true)
      ∧ digitsToNat (digits.take 4) = d.year
      ∧ digitsToNat ((digits.drop 4).take 2) = d.month
      ∧ digitsToNat ((digits.drop 6).take 2) = d.day
      ∧ digitsToNat ((digits.drop 8).take 2) = d.hour
      ∧ digitsToNat ((digits.drop 10).take 2) = d.minute
      ∧ digitsToNat (digits.drop 12) = d.second)
    ∧ xmltv_time ⟨2026, 1, 14, 8, 5, 0⟩ = "20260114080500 +0000" := by
  constructor
  · refine ⟨pad4 d.year ++ pad2 d.month ++ pad2 d.day ++ pad2 d.hour ++ pad2 d.minute ++
      pad2 d.second, ?_, rfl, ?_, ?_, ?_, ?_, ?_, ?_, ?_⟩
    · show (pad4 d.year ++ pad2 d.month ++ pad2 d.day ++ pad2 d.hour ++ pad2 d.minute ++
        pad2 d.second ++ " +0000".data) = _
      simp [List.append_assoc]
    · intro c hc
      simp only [List.append_assoc, List.mem_append] at hc
      rcases hc with h | h | h | h | h | h
      · exact pad4_digits _ c h
      · exact pad2_digits _ c h
      · exact pad2_digits _ c h
      · exact pad2_digits _ c h
      · exact pad2_digits _ c h
      · exact pad2_digits _ c h
    · exact digitsToNat_pad4 hy2
    · exact digitsToNat_pad2 (le_trans hmo (by norm_num))
    · exact digitsToNat_pad2 (le_trans hd (by norm_num))
    · exact digitsToNat_pad2 (le_trans hh (by norm_num))
    · exact digitsToNat_pad2 (le_trans hmi (by norm_num))
    · exact digitsToNat_pad2 (le_trans hs (by norm_num))
  · rfl

/-- Witness for C8 at the spec's example timestamp. -/
theorem claim_C8_witness :
    xmltv_time ⟨2026, 1, 14, 8, 5, 0⟩ = "20260114080500 +0000" :=
  (claim_C8 ⟨2026, 1, 14, 8, 5, 0⟩ (by norm_num) (by norm_num) (by norm_num) (by norm_num)
    (by norm_num) (by norm_num) (by norm_num)).2

/-- Claim C9: in every emitted programme block each occurrence of the
reserved characters in title or description is replaced by its markup entity
(`html_escape` equals the character-wise entity map, and its output contains
no raw `<`, `>` or double quote), and an empty title (resp. description)
produces no title (resp. desc) line at all. -/
theorem claim_C9 (out_lines : List String) (chan_id : String) (e : EventDT) :
    (∀ s : String, html_escape s = String.mk (s.data.flatMap escChar))
    ∧ (∀ (s : String) (c : Char), c ∈ (html_escape s).data → c ≠ '<' ∧ c ≠ '>' ∧ c ≠ '"')
    ∧ html_escape "A&B \"q\" <i>" = "A&amp;B &quot;q&quot; &lt;i&gt;"
    ∧ emit_programme out_lines chan_id e =
        out_lines ++ [progOpenLine chan_id e]
          ++ (if e.title = "" then [] else ["    <title>" ++ html_escape e.title ++ "</title>"])
          ++ (if e.desc = "" then [] else ["    <desc>" ++ html_escape e.desc ++ "</desc>"])
          ++ ["  </programme>"]
    ∧ (e.title = "" → e.desc = "" →
        emit_programme out_lines chan_id e =
          out_lines ++ [progOpenLine chan_id e, "  </programme>"]) := by
  have hesc : ∀ s : String, html_escape s = String.mk (s.data.flatMap escChar) := by
    intro s
    unfold html_escape
    rw [escChain_eq_flatMap]
  refine ⟨hesc, ?_, by decide, ?_, ?_⟩
  · intro s c hc
    rw [hesc] at hc
    exact noRawSpecial _ c hc
  · by_cases ht : e.title = "" <;> by_cases hd : e.desc = "" <;>
      simp [emit_programme, ht, hd]
  · intro ht hd
    simp [emit_programme, ht, hd]

/-- Witness for C9: an event with empty title and description emits only the
programme frame, no child element lines. -/
theorem claim_C9_witness :
    emit_programme [] "ruv.is" ⟨⟨2026, 1, 14, 8, 5, 0⟩, ⟨2026, 1, 14, 9, 5, 0⟩, "", ""⟩ =
      [progOpenLine "ruv.is" ⟨⟨2026, 1, 14, 8, 5, 0⟩, ⟨2026, 1, 14, 9, 5, 0⟩, "", ""⟩,
       "  </programme>"] :=
  (claim_C9 [] "ruv.is" ⟨⟨2026, 1, 14, 8, 5, 0⟩, ⟨2026, 1, 14, 9, 5, 0⟩, "", ""⟩).2.2.2.2
    rfl rfl

/-- Claim C10: every token the regex scan produces contains no question mark
and ends case-insensitively in `.xml` (hence never in `xmltv.dtd`), so the
query-stripping and dtd-filter steps never change the candidate set and
`pick_latest_xml` equals the variant that just deduplicates and sorts the raw
matches and takes the last. -/
theorem claim_C10 (base_url listing : String) :
    (∀ t ∈ findallXml listing,
        '?' ∉ t ∧ 5 ≤ t.length ∧ lowerL (t.drop (t.length - 4)) = ['.', 'x', 'm', 'l'])
    ∧ pick_latest_xml base_url listing = pick_latest_xml_raw base_url listing := by
  constructor
  · intro t ht
    obtain ⟨hcls, hx⟩ := scanFuel_tokens _ _ t ht
    refine ⟨?_, ?_, ?_⟩
    · intro hmem
      have hc := hcls '?' hmem
      simp [isClassChar] at hc
    · unfold isXmlEnd at hx
      exact of_decide_eq_true (((Bool.and_eq_true _ _).mp hx).1)
    · unfold isXmlEnd at hx
      have hb := (((Bool.and_eq_true _ _)).mp hx).2
      simpa [lowerL] using hb
  · unfold pick_latest_xml pick_latest_xml_raw
    rw [candidatesOf_eq_raw]

end Ruv
